import Mathlib

/-!
Verification of `combine_ts.py`: a tool that recursively scans a directory
tree for TypeScript files (`.ts` / `.tsx`), skipping a fixed denylist of
build/output directory names, and concatenates the found files into a single
output file with per-file header blocks.

Modelling conventions:
* A filesystem is a forest of `FSTree` nodes.  A file node carries the
  outcome of `read_text` on it: `Except.ok content` for a readable UTF-8
  file, `Except.error msg` for a file whose read raises (undecodable bytes,
  permission error, ...), mirroring the `try/except` in `combine_files`.
* A path below the scan root is represented by its list of name components;
  its full path string is the root string joined with the components by
  `'/'`, exactly how `os.walk` builds `dirpath` and `Path(dirpath)/filename`
  concatenate on POSIX.
* Python's `sorted` on `Path` values compares path strings; the model sorts
  component lists by their full path string with a stable insertion sort
  (on identical strings any stable — indeed any — sort agrees).
* Writing to the output file is modelled by the string written; `main`
  returns an outcome record with the exit code, the write (if any) and the
  lines printed to stdout.
-/

namespace CombineTs

instance {ε α : Type} [DecidableEq ε] [DecidableEq α] : DecidableEq (Except ε α) := fun a b =>
  match a, b with
  | .ok x, .ok y =>
    if h : x = y then .isTrue (by rw [h]) else .isFalse (fun hc => h (Except.ok.inj hc))
  | .error x, .error y =>
    if h : x = y then .isTrue (by rw [h]) else .isFalse (fun hc => h (Except.error.inj hc))
  | .ok _, .error _ => .isFalse (fun hc => Except.noConfusion hc)
  | .error _, .ok _ => .isFalse (fun hc => Except.noConfusion hc)

/-- A node of the modelled filesystem: a file with the outcome of reading it,
or a directory with its children. -/
inductive FSTree where
  | file (name : String) (data : Except String String)
  | dir (name : String) (children : List FSTree)

/-- Name of a filesystem entry. -/
def FSTree.name : FSTree → String
  | .file n _ => n
  | .dir n _ => n

/-- The fixed skip set `SKIP_DIRS` of `combine_ts.py`. -/
def SKIP_DIRS : List String :=
  ["node_modules", "dist", "build", ".next", "out", "coverage", ".turbo", ".cache",
   "__pycache__", ".git"]

/-- Exact, case-sensitive membership test of a directory name in the skip set
(`d not in SKIP_DIRS` in the source). -/
def isSkipDir (n : String) : Bool := SKIP_DIRS.contains n

/-- The filter `filename.endswith(('.ts', '.tsx'))`: case-sensitive exact
suffix match on the sequence of characters of the filename. -/
def endsWithTs (filename : String) : Bool :=
  ".ts".data.isSuffixOf filename.data || ".tsx".data.isSuffixOf filename.data

mutual
/-- Paths (as component lists, relative to the walked directory) collected by
the `os.walk` loop of `find_ts_files` from a single directory entry: a file
is kept iff its name matches the suffix filter; a directory whose name is in
`SKIP_DIRS` is pruned (`dirnames[:] = [d for d in dirnames if d not in
SKIP_DIRS]`), so nothing below it is ever visited; any other directory
contributes its recursively collected paths, prefixed with its name. -/
def collectEntry : FSTree → List (List String)
  | .file n _ => if endsWithTs n then [[n]] else []
  | .dir n cs => if isSkipDir n then [] else (collectForest cs).map (n :: ·)

/-- Paths collected from a list of sibling entries, in listing order. -/
def collectForest : List FSTree → List (List String)
  | [] => []
  | t :: ts => collectEntry t ++ collectForest ts
end

/-- Join a list of path components on the character `'/'`
(`.ts`-file relative paths are printed this way by `str` on a POSIX `Path`). -/
def joinData : List (List Char) → List Char
  | [] => []
  | [n] => n
  | n :: rest => n ++ '/' :: joinData rest

/-- String form of a component path relative to the root. -/
def joinComps (c : List String) : String := String.mk (joinData (c.map String.data))

/-- Full path string of a component path below the root, as built by the walk
(`Path(dirpath) / filename` appends `'/'` and the name on POSIX). -/
def fullPath (root : String) (c : List String) : String := root ++ "/" ++ joinComps c

/-- Lexicographic order on character sequences, by code point, exactly as
Python compares strings (executable; proved below to agree with the
mathematical order on `String`). -/
def lexLeCh : List Char → List Char → Bool
  | [], _ => true
  | _ :: _, [] => false
  | a :: as, b :: bs => if a < b then true else if b < a then false else lexLeCh as bs

/-- Lexicographic order on strings, by code point. -/
def strLe (a b : String) : Bool := lexLeCh a.data b.data

/-- Comparison of component paths by their full path string; this is the
order in which `sorted` arranges the discovered `Path` values. -/
def pathLe (root : String) (a b : List String) : Prop :=
  strLe (fullPath root a) (fullPath root b) = true

instance (root : String) : DecidableRel (pathLe root) := fun _ _ =>
  inferInstanceAs (Decidable (_ = true))

/-- The discovered component paths, sorted by full path string: the result of
`sorted(ts_files)` viewed at the component level. -/
def sortedEntries (root : String) (cs : List FSTree) : List (List String) :=
  List.insertionSort (pathLe root) (collectForest cs)

/-- The model of `find_ts_files`: the list of full path strings of all
collected files, sorted.  `cs` is the forest of children of the root
directory (the root itself is walked unconditionally; pruning applies to the
directories below it). -/
def find_ts_files (root : String) (cs : List FSTree) : List String :=
  (sortedEntries root cs).map (fullPath root)

mutual
/-- Spec-side enumeration: the component paths of all files anywhere below an
entry, at any depth, with no pruning and no suffix filter. -/
def allFilePaths : FSTree → List (List String)
  | .file n _ => [[n]]
  | .dir n cs => (allForest cs).map (n :: ·)

/-- Spec-side enumeration over a list of sibling entries. -/
def allForest : List FSTree → List (List String)
  | [] => []
  | t :: ts => allFilePaths t ++ allForest ts
end

/-- Final component (the filename) of a component path. -/
def lastName : List String → String
  | [] => ""
  | [n] => n
  | _ :: rest => lastName rest

/-- A component path matches the suffix filter iff its filename does. -/
def matchesSuffix (c : List String) : Bool := endsWithTs (lastName c)

/-- True iff none of the ancestor directory names (all components except the
final filename) is in the skip set. -/
def noSkipAncestors : List String → Bool
  | [] => true
  | [_] => true
  | d :: rest => !isSkipDir d && noSkipAncestors rest

/-- A component path survives discovery iff no ancestor directory is skipped
and the filename matches the suffix filter. -/
def keepComps (c : List String) : Bool := noSkipAncestors c && matchesSuffix c

/-- Modelled from the spec sentence for Discovery taken on its own: "given a
root directory, produce the sorted list of all files anywhere under that root
(including nested subdirectories) whose name ends with one of the configured
suffixes" — with no exclusion of skip-set directories. -/
def discovery_spec_skipless (root : String) (cs : List FSTree) : List String :=
  (List.insertionSort (pathLe root) ((allForest cs).filter matchesSuffix)).map (fullPath root)

/-- A legal filesystem name: nonempty and without the separator `'/'`. -/
def validNameL (n : List Char) : Bool := decide (n ≠ []) && decide ('/' ∉ n)

/-- A legal filesystem name, on strings. -/
def validName (n : String) : Bool := validNameL n.data

/-- True iff the names in the list are pairwise distinct. -/
def distinctNames : List String → Bool
  | [] => true
  | n :: rest => !rest.contains n && distinctNames rest

mutual
/-- Well-formedness of an entry as a real filesystem guarantees it: every
name is legal and the children of each directory have pairwise distinct
names. -/
def wfTree : FSTree → Bool
  | .file n _ => validName n
  | .dir n cs => validName n && distinctNames (cs.map FSTree.name) && wfAll cs

/-- Well-formedness of every entry in a list. -/
def wfAll : List FSTree → Bool
  | [] => true
  | t :: ts => wfTree t && wfAll ts
end

/-- Well-formedness of a forest of siblings (the children of the scan root). -/
def wfForest (cs : List FSTree) : Bool :=
  distinctNames (cs.map FSTree.name) && wfAll cs

/-- Look up an entry by name among siblings (filesystem name resolution). -/
def findEntry (n : String) (cs : List FSTree) : Option FSTree :=
  cs.find? (fun t => t.name == n)

/-- Model of `ts_file.read_text(encoding='utf-8')` against the filesystem:
resolve the component path below the root and return the read outcome stored
at the file node; a path that no longer resolves to a file yields an error,
like the raised `OSError` (race-condition deletion and similar). -/
def read_text : List FSTree → List String → Except String String
  | _, [] => .error "No such file or directory"
  | cs, [n] =>
    match findEntry n cs with
    | some (.file _ d) => d
    | some (.dir _ _) => .error ("Is a directory: " ++ n)
    | none => .error ("No such file or directory: " ++ n)
  | cs, n :: rest =>
    match findEntry n cs with
    | some (.dir _ cs') => read_text cs' rest
    | _ => .error ("No such file or directory: " ++ n)

/-- Drop a leading run of characters from a list, or fail. -/
def dropLead : List Char → List Char → Option (List Char)
  | [], s => some s
  | _ :: _, [] => none
  | a :: as, b :: bs => if a = b then dropLead as bs else none

/-- Model of `ts_file.relative_to(root_path)` for the cases arising here: if
the path extends the root by a separator it returns the remainder, otherwise
it fails with `ValueError` (the file being the root itself cannot arise for a
walked file and is not modelled). -/
def relative_to (p root : String) : Except String String :=
  match dropLead (root.data ++ ['/']) p.data with
  | some r => .ok (String.mk r)
  | none => .error (p ++ " is not in the subpath of " ++ root)

/-- The line of eighty `'='` characters (`"=" * 80`). -/
def separator : String := String.mk (List.replicate 80 '=')

/-- The header of one output block: a leading newline, a separator line, the
`// FILE:` line with the root-relative path, a second separator line and a
blank line. -/
def blockHeader (rel : String) : String :=
  "\n" ++ separator ++ "\n" ++ "// FILE: " ++ rel ++ "\n" ++ separator ++ "\n\n"

/-- The body of one output block: the full file content plus a trailing
newline on a successful read, or the single inline error line on a failed
read (`// ERROR reading file: {e}`). -/
def blockBody : Except String String → String
  | .ok content => content ++ "\n"
  | .error e => "// ERROR reading file: " ++ e ++ "\n"

/-- One complete output block for a file. -/
def blockFor (rel : String) (r : Except String String) : String :=
  blockHeader rel ++ blockBody r

/-- Concatenation of a list of strings with nothing between them. -/
def concatAll : List String → String
  | [] => ""
  | s :: rest => s ++ concatAll rest

/-- Model of `combine_files`: for each discovered component path in order,
compute the path relative to the root (an uncaught `ValueError` here aborts
the run: the result is `Except.error` carrying what was already written and
the message), then write the block for it, reading the file from the
filesystem `fsys`.  On success the result is the full text written. -/
def combine_files (root : String) (fsys : List FSTree) :
    List (List String) → Except (String × String) String
  | [] => .ok ""
  | e :: rest =>
    match relative_to (fullPath root e) root with
    | .error msg => .error ("", msg)
    | .ok rel =>
      let b := blockFor rel (read_text fsys e)
      match combine_files root fsys rest with
      | .ok s => .ok (b ++ s)
      | .error (s, msg) => .error (b ++ s, msg)

/-- Observable outcome of one run of `main`: the exit code (`exit(main())`),
the write to the output file (`none` when the file is never opened), and the
lines printed to stdout. -/
structure MainOutcome where
  exitCode : Nat
  output : Option (Except (String × String) String)
  stdout : List String

/-- Model of `main`: `fsys` is `none` when the resolved root path does not
exist, otherwise `some` of the root directory's children.  `outputName` is
the resolved output path (`cwd / args.output`), printed in the final report. -/
def main (rootPath : String) (fsys : Option (List FSTree)) (outputName : String) :
    MainOutcome :=
  match fsys with
  | none =>
    { exitCode := 1
      output := none
      stdout := ["Error: Path '" ++ rootPath ++ "' does not exist"] }
  | some cs =>
    let ts_files := find_ts_files rootPath cs
    if ts_files.isEmpty then
      { exitCode := 0
        output := none
        stdout := ["Searching for TypeScript files in: " ++ rootPath,
                   "No TypeScript files found"] }
    else
      { exitCode := 0
        output := some (combine_files rootPath cs (sortedEntries rootPath cs))
        stdout := ["Searching for TypeScript files in: " ++ rootPath,
                   "Found " ++ toString ts_files.length ++ " TypeScript files",
                   "Combined into: " ++ outputName] }

/-- A small example filesystem used to instantiate the theorems: a normal
source directory, a `node_modules` subtree that must be pruned, and a file
whose read fails. -/
def exampleForest : List FSTree :=
  [FSTree.dir "src" [FSTree.file "app.ts" (Except.ok "let a = 1"),
                     FSTree.file "util.tsx" (Except.ok "x"),
                     FSTree.file "readme.md" (Except.ok "no")],
   FSTree.dir "node_modules" [FSTree.dir "x" [FSTree.file "y.ts" (Except.ok "z")]],
   FSTree.file "bad.ts" (Except.error "bad utf8")]

/-- An example filesystem containing no TypeScript files. -/
def noTsForest : List FSTree :=
  [FSTree.dir "src" [FSTree.file "readme.md" (Except.ok "hello")]]

/-! Basic facts about the lexicographic order. -/

theorem string_ext {a b : String} (h : a.data = b.data) : a = b := by
  cases a
  cases b
  exact congrArg String.mk h

theorem lexLeCh_total (a : List Char) : ∀ b, lexLeCh a b = true ∨ lexLeCh b a = true := by
  induction a with
  | nil => intro b; left; rfl
  | cons x as ih =>
    intro b
    cases b with
    | nil => right; rfl
    | cons y bs =>
      by_cases hxy : x < y
      · left
        simp [lexLeCh, hxy]
      · by_cases hyx : y < x
        · right
          simp [lexLeCh, hyx]
        · have hx : x = y := le_antisymm (not_lt.mp hyx) (not_lt.mp hxy)
          subst hx
          rcases ih bs with h | h
          · left
            simp [lexLeCh, h]
          · right
            simp [lexLeCh, h]

theorem lexLeCh_trans {a : List Char} : ∀ {b c : List Char},
    lexLeCh a b = true → lexLeCh b c = true → lexLeCh a c = true := by
  induction a with
  | nil => intro b c _ _; rfl
  | cons x as ih =>
    intro b c h₁ h₂
    cases b with
    | nil => simp [lexLeCh] at h₁
    | cons y bs =>
      cases c with
      | nil => simp [lexLeCh] at h₂
      | cons z cs =>
        by_cases hxy : x < y
        · by_cases hyz : y < z
          · simp [lexLeCh, lt_trans hxy hyz]
          · by_cases hzy : z < y
            · simp [lexLeCh, hyz, hzy] at h₂
            · have : y = z := le_antisymm (not_lt.mp hzy) (not_lt.mp hyz)
              subst this
              simp [lexLeCh, hxy]
        · by_cases hyx : y < x
          · simp [lexLeCh, hxy, hyx] at h₁
          · have : x = y := le_antisymm (not_lt.mp hyx) (not_lt.mp hxy)
            subst this
            simp only [lexLeCh, if_neg (lt_irrefl x)] at h₁
            by_cases hxz : x < z
            · simp [lexLeCh, hxz]
            · by_cases hzx : z < x
              · simp [lexLeCh, hxz, hzx] at h₂
              · have : x = z := le_antisymm (not_lt.mp hzx) (not_lt.mp hxz)
                subst this
                simp only [lexLeCh, if_neg (lt_irrefl x)] at h₂ ⊢
                exact ih h₁ h₂

theorem lexLeCh_antisymm {a : List Char} : ∀ {b : List Char},
    lexLeCh a b = true → lexLeCh b a = true → a = b := by
  induction a with
  | nil =>
    intro b _ h₂
    cases b with
    | nil => rfl
    | cons y bs => simp [lexLeCh] at h₂
  | cons x as ih =>
    intro b h₁ h₂
    cases b with
    | nil => simp [lexLeCh] at h₁
    | cons y bs =>
      by_cases hxy : x < y
      · simp [lexLeCh, hxy, asymm hxy] at h₂
      · by_cases hyx : y < x
        · simp [lexLeCh, hxy, hyx] at h₁
        · have hx : x = y := le_antisymm (not_lt.mp hyx) (not_lt.mp hxy)
          subst hx
          simp only [lexLeCh, if_neg (lt_irrefl x)] at h₁ h₂
          rw [ih h₁ h₂]

theorem lexLeCh_iff_lex (a : List Char) : ∀ b,
    lexLeCh a b = true ↔ a = b ∨ List.Lex (· < ·) a b := by
  induction a with
  | nil =>
    intro b
    cases b with
    | nil => simp [lexLeCh]
    | cons y bs => simp [lexLeCh, List.Lex.nil]
  | cons x as ih =>
    intro b
    cases b with
    | nil =>
      simp only [lexLeCh]
      constructor
      · intro h; simp at h
      · rintro (h | h)
        · exact absurd h (List.cons_ne_nil x as)
        · cases h
    | cons y bs =>
      by_cases hxy : x < y
      · simp only [lexLeCh, if_pos hxy]
        constructor
        · intro _
          exact Or.inr (List.Lex.rel hxy)
        · intro _
          trivial
      · by_cases hyx : y < x
        · simp only [lexLeCh, if_neg hxy, if_pos hyx]
          constructor
          · intro h; simp at h
          · rintro (h | h)
            · cases h
              exact absurd hyx (lt_irrefl x)
            · cases h with
              | cons h' => exact absurd hyx (lt_irrefl x)
              | rel h' => exact absurd (lt_trans h' hyx) (lt_irrefl x)
        · have hx : x = y := le_antisymm (not_lt.mp hyx) (not_lt.mp hxy)
          subst hx
          simp only [lexLeCh, if_neg (lt_irrefl x)]
          rw [ih bs]
          constructor
          · rintro (h | h)
            · exact Or.inl (by rw [h])
            · exact Or.inr (List.Lex.cons h)
          · rintro (h | h)
            · exact Or.inl (by injection h)
            · cases h with
              | cons h' => exact Or.inr h'
              | rel h' => exact absurd h' (lt_irrefl x)

theorem strLe_iff_le (a b : String) : strLe a b = true ↔ a ≤ b := by
  rw [strLe, lexLeCh_iff_lex, String.le_iff_toList_le]
  show a.data = b.data ∨ _ ↔ a.data ≤ b.data
  rw [le_iff_eq_or_lt]
  exact Iff.rfl

/-! Sortedness and permutation facts about discovery. -/

theorem sortedEntries_sorted (root : String) (cs : List FSTree) :
    (sortedEntries root cs).Sorted (pathLe root) := by
  haveI : IsTotal (List String) (pathLe root) := ⟨fun a b => lexLeCh_total _ _⟩
  haveI : IsTrans (List String) (pathLe root) := ⟨fun _ _ _ h₁ h₂ => lexLeCh_trans h₁ h₂⟩
  exact List.sorted_insertionSort _ _

theorem sortedEntries_perm (root : String) (cs : List FSTree) :
    (sortedEntries root cs).Perm (collectForest cs) :=
  List.perm_insertionSort _ _

theorem find_ts_files_sorted_le (root : String) (cs : List FSTree) :
    (find_ts_files root cs).Sorted (· ≤ ·) :=
  List.Pairwise.map _ (fun _ _ hab => (strLe_iff_le _ _).mp hab)
    (sortedEntries_sorted root cs)

/-! The walk agrees with the spec-side enumeration filtered by the
discovery predicate. -/

theorem lastName_cons (n : String) (c : List String) (h : c ≠ []) :
    lastName (n :: c) = lastName c := by
  match c, h with
  | m :: rest, _ => rfl

theorem noSkipAncestors_cons (n : String) (c : List String) (h : c ≠ []) :
    noSkipAncestors (n :: c) = (!isSkipDir n && noSkipAncestors c) := by
  match c, h with
  | m :: rest, _ => rfl

theorem keepComps_cons (n : String) (c : List String) (h : c ≠ []) :
    keepComps (n :: c) = (!isSkipDir n && keepComps c) := by
  rw [keepComps, keepComps, noSkipAncestors_cons n c h, matchesSuffix, matchesSuffix,
    lastName_cons n c h, Bool.and_assoc]

theorem keepComps_single (n : String) : keepComps [n] = endsWithTs n := by
  simp [keepComps, noSkipAncestors, matchesSuffix, lastName]

theorem filter_map_cons_comm (p : List String → Bool) (n : String) (A : List (List String)) :
    (A.map (n :: ·)).filter p = (A.filter (fun c => p (n :: c))).map (n :: ·) := by
  induction A with
  | nil => rfl
  | cons c A ih => by_cases h : p (n :: c) <;> simp [List.filter_cons, h, ih]

theorem allFilePaths_ne_nil (t : FSTree) : ∀ c ∈ allFilePaths t, c ≠ [] := by
  cases t with
  | file n d =>
    intro c hc
    rw [allFilePaths] at hc
    rw [List.mem_singleton.mp hc]
    exact List.cons_ne_nil n []
  | dir n cs =>
    intro c hc
    rw [allFilePaths] at hc
    rcases List.mem_map.mp hc with ⟨x, _, rfl⟩
    exact List.cons_ne_nil n x

theorem allForest_ne_nil (cs : List FSTree) : ∀ c ∈ allForest cs, c ≠ [] := by
  induction cs with
  | nil =>
    intro c hc
    rw [allForest] at hc
    exact absurd hc (List.not_mem_nil c)
  | cons t ts ih =>
    intro c hc
    rw [allForest] at hc
    rcases List.mem_append.mp hc with h | h
    · exact allFilePaths_ne_nil t c h
    · exact ih c h

mutual
theorem collectEntry_eq_filter (t : FSTree) :
    collectEntry t = (allFilePaths t).filter keepComps := by
  cases t with
  | file n d =>
    rw [collectEntry, allFilePaths]
    by_cases h : endsWithTs n <;> simp [List.filter_cons, keepComps_single, h]
  | dir n cs =>
    rw [collectEntry, allFilePaths,
      filter_map_cons_comm keepComps n (allForest cs),
      List.filter_congr (fun c hc => keepComps_cons n c (allForest_ne_nil cs c hc))]
    by_cases h : isSkipDir n
    · simp [h]
    · simp only [h, Bool.not_false, Bool.true_and, if_neg]
      rw [collectForest_eq_filter cs]
      simp

theorem collectForest_eq_filter (cs : List FSTree) :
    collectForest cs = (allForest cs).filter keepComps := by
  cases cs with
  | nil => rfl
  | cons t ts =>
    rw [collectForest, allForest, List.filter_append, collectEntry_eq_filter t,
      collectForest_eq_filter ts]
end

/-! Validity of names along paths, and injectivity of path printing. -/

theorem wfAll_of_wfForest {cs : List FSTree} (h : wfForest cs = true) : wfAll cs = true := by
  rw [wfForest] at h
  exact (Bool.and_eq_true_iff.mp h).2

theorem distinct_of_wfForest {cs : List FSTree} (h : wfForest cs = true) :
    distinctNames (cs.map FSTree.name) = true := by
  rw [wfForest] at h
  exact (Bool.and_eq_true_iff.mp h).1

mutual
theorem allFilePaths_valid (t : FSTree) (h : wfTree t = true) :
    ∀ c ∈ allFilePaths t, ∀ n ∈ c, validName n = true := by
  cases t with
  | file n d =>
    intro c hc m hm
    rw [allFilePaths] at hc
    rw [List.mem_singleton.mp hc] at hm
    rw [List.mem_singleton.mp hm]
    exact h
  | dir n cs =>
    intro c hc m hm
    rw [allFilePaths] at hc
    rcases List.mem_map.mp hc with ⟨x, hx, rfl⟩
    rw [wfTree, Bool.and_eq_true_iff, Bool.and_eq_true_iff] at h
    rcases List.mem_cons.mp hm with rfl | hm'
    · exact h.1.1
    · exact allForest_valid cs h.2 x hx m hm'

theorem allForest_valid (cs : List FSTree) (h : wfAll cs = true) :
    ∀ c ∈ allForest cs, ∀ n ∈ c, validName n = true := by
  cases cs with
  | nil =>
    intro c hc
    rw [allForest] at hc
    exact absurd hc (List.not_mem_nil c)
  | cons t ts =>
    intro c hc m hm
    rw [allForest] at hc
    rw [wfAll] at h
    obtain ⟨h1, h2⟩ := Bool.and_eq_true_iff.mp h
    rcases List.mem_append.mp hc with hc' | hc'
    · exact allFilePaths_valid t h1 c hc' m hm
    · exact allForest_valid ts h2 c hc' m hm
end

theorem collectForestMemValid {cs : List FSTree} (h : wfForest cs = true) :
    ∀ c ∈ collectForest cs, c ≠ [] ∧ ∀ n ∈ c, validName n = true := by
  intro c hc
  rw [collectForest_eq_filter] at hc
  have hc' : c ∈ allForest cs := List.filter_subset' _ hc
  exact ⟨allForest_ne_nil cs c hc', allForest_valid cs (wfAll_of_wfForest h) c hc'⟩

theorem validNameL_iff {n : List Char} : validNameL n = true ↔ n ≠ [] ∧ '/' ∉ n := by
  simp [validNameL]

theorem slash_split {a : List Char} : ∀ {b x y : List Char},
    '/' ∉ a → '/' ∉ b → a ++ '/' :: x = b ++ '/' :: y → a = b ∧ x = y := by
  induction a with
  | nil =>
    intro b x y _ hb h
    cases b with
    | nil => simpa using h
    | cons c bs =>
      rw [List.nil_append, List.cons_append] at h
      injection h with h1 h2
      subst h1
      exact absurd (List.mem_cons_self _ _) hb
  | cons d as ih =>
    intro b x y ha hb h
    cases b with
    | nil =>
      rw [List.nil_append, List.cons_append] at h
      injection h with h1 h2
      rw [h1] at ha
      exact absurd (List.mem_cons_self _ _) ha
    | cons c bs =>
      rw [List.cons_append, List.cons_append] at h
      injection h with h1 h2
      have ha' : '/' ∉ as := fun hm => ha (List.mem_cons_of_mem _ hm)
      have hb' : '/' ∉ bs := fun hm => hb (List.mem_cons_of_mem _ hm)
      obtain ⟨e1, e2⟩ := ih ha' hb' h2
      exact ⟨by rw [h1, e1], e2⟩

theorem joinData_cons_ne_nil (n : List Char) (rest : List (List Char)) (hn : n ≠ []) :
    joinData (n :: rest) ≠ [] := by
  cases rest with
  | nil => exact hn
  | cons m r =>
    show n ++ '/' :: joinData (m :: r) ≠ []
    intro h
    exact absurd (List.append_eq_nil.mp h).2 (List.cons_ne_nil _ _)

theorem joinData_inj : ∀ (a b : List (List Char)),
    (∀ n ∈ a, validNameL n = true) → (∀ n ∈ b, validNameL n = true) →
    joinData a = joinData b → a = b
  | [], [], _, _, _ => rfl
  | [], m :: bs, _, hb, h => by
    exfalso
    have hm := (validNameL_iff.mp (hb m (List.mem_cons_self m bs))).1
    exact joinData_cons_ne_nil m bs hm (by rw [← h]; rfl)
  | n :: as, [], ha, _, h => by
    exfalso
    have hn := (validNameL_iff.mp (ha n (List.mem_cons_self n as))).1
    exact joinData_cons_ne_nil n as hn (by rw [h]; rfl)
  | [n], [m], _, _, h => by rw [show n = m from h]
  | [n], m :: m2 :: r, ha, hb, h => by
    exfalso
    have hn := (validNameL_iff.mp (ha n (List.mem_cons_self n []))).2
    apply hn
    rw [show joinData [n] = n from rfl,
      show joinData (m :: m2 :: r) = m ++ '/' :: joinData (m2 :: r) from rfl] at h
    rw [h]
    exact List.mem_append_right m (List.mem_cons_self _ _)
  | n :: n2 :: r, [m], ha, hb, h => by
    exfalso
    have hm := (validNameL_iff.mp (hb m (List.mem_cons_self m []))).2
    apply hm
    rw [show joinData [m] = m from rfl,
      show joinData (n :: n2 :: r) = n ++ '/' :: joinData (n2 :: r) from rfl] at h
    rw [← h]
    exact List.mem_append_right n (List.mem_cons_self _ _)
  | n :: n2 :: r, m :: m2 :: r', ha, hb, h => by
    have hna := validNameL_iff.mp (ha n (List.mem_cons_self _ _))
    have hmb := validNameL_iff.mp (hb m (List.mem_cons_self _ _))
    rw [show joinData (n :: n2 :: r) = n ++ '/' :: joinData (n2 :: r) from rfl,
      show joinData (m :: m2 :: r') = m ++ '/' :: joinData (m2 :: r') from rfl] at h
    obtain ⟨e1, e2⟩ := slash_split hna.2 hmb.2 h
    have e3 := joinData_inj (n2 :: r) (m2 :: r')
      (fun x hx => ha x (List.mem_cons_of_mem _ hx))
      (fun x hx => hb x (List.mem_cons_of_mem _ hx)) e2
    rw [e1, e3]

theorem joinComps_inj {a b : List String}
    (ha : ∀ n ∈ a, validName n = true) (hb : ∀ n ∈ b, validName n = true)
    (h : joinComps a = joinComps b) : a = b := by
  have hd : joinData (a.map String.data) = joinData (b.map String.data) :=
    congrArg String.data h
  have e := joinData_inj _ _
    (fun x hx => by
      rcases List.mem_map.mp hx with ⟨s, hs, rfl⟩
      exact ha s hs)
    (fun x hx => by
      rcases List.mem_map.mp hx with ⟨s, hs, rfl⟩
      exact hb s hs)
    hd
  exact List.map_injective_iff.mpr (fun s t hst => string_ext hst) e

theorem fullPath_inj {root : String} {a b : List String}
    (ha : ∀ n ∈ a, validName n = true) (hb : ∀ n ∈ b, validName n = true)
    (h : fullPath root a = fullPath root b) : a = b := by
  apply joinComps_inj ha hb
  apply string_ext
  have hd := congrArg String.data h
  rw [fullPath, fullPath, String.data_append, String.data_append] at hd
  exact List.append_cancel_left hd

/-! Heads and uniqueness of collected paths. -/

theorem collectEntry_head (t : FSTree) : ∀ c ∈ collectEntry t, ∃ r, c = t.name :: r := by
  cases t with
  | file n d =>
    intro c hc
    rw [collectEntry] at hc
    by_cases h : endsWithTs n
    · rw [if_pos h] at hc
      exact ⟨[], List.mem_singleton.mp hc⟩
    · rw [if_neg h] at hc
      exact absurd hc (List.not_mem_nil c)
  | dir n cs =>
    intro c hc
    rw [collectEntry] at hc
    by_cases h : isSkipDir n
    · rw [if_pos h] at hc
      exact absurd hc (List.not_mem_nil c)
    · rw [if_neg h] at hc
      rcases List.mem_map.mp hc with ⟨x, _, rfl⟩
      exact ⟨x, rfl⟩

theorem collectForest_head (cs : List FSTree) :
    ∀ c ∈ collectForest cs, ∃ t, t ∈ cs ∧ ∃ r, c = t.name :: r := by
  induction cs with
  | nil =>
    intro c hc
    rw [collectForest] at hc
    exact absurd hc (List.not_mem_nil c)
  | cons t ts ih =>
    intro c hc
    rw [collectForest] at hc
    rcases List.mem_append.mp hc with h | h
    · rcases collectEntry_head t c h with ⟨r, hr⟩
      exact ⟨t, List.mem_cons_self t ts, r, hr⟩
    · rcases ih c h with ⟨t', ht', r, hr⟩
      exact ⟨t', List.mem_cons_of_mem t ht', r, hr⟩

theorem distinctNames_cons {n : String} {l : List String} (h : distinctNames (n :: l) = true) :
    l.contains n = false ∧ distinctNames l = true := by
  rw [distinctNames, Bool.and_eq_true_iff] at h
  exact ⟨by simpa using h.1, h.2⟩

mutual
theorem collectEntry_nodup (t : FSTree) (h : wfTree t = true) : (collectEntry t).Nodup := by
  cases t with
  | file n d =>
    rw [collectEntry]
    by_cases he : endsWithTs n
    · rw [if_pos he]
      exact List.nodup_singleton _
    · rw [if_neg he]
      exact List.nodup_nil
  | dir n cs =>
    rw [collectEntry]
    by_cases hs : isSkipDir n
    · rw [if_pos hs]
      exact List.nodup_nil
    · rw [if_neg hs]
      rw [wfTree, Bool.and_eq_true_iff, Bool.and_eq_true_iff] at h
      exact (collectForest_nodup cs h.1.2 h.2).map (List.cons_injective)

theorem collectForest_nodup (cs : List FSTree)
    (hd : distinctNames (cs.map FSTree.name) = true) (ha : wfAll cs = true) :
    (collectForest cs).Nodup := by
  cases cs with
  | nil => exact List.nodup_nil
  | cons t ts =>
    rw [collectForest]
    rw [wfAll, Bool.and_eq_true_iff] at ha
    rw [List.map_cons] at hd
    obtain ⟨hc, hd'⟩ := distinctNames_cons hd
    refine List.nodup_append.mpr
      ⟨collectEntry_nodup t ha.1, collectForest_nodup ts hd' ha.2, ?_⟩
    intro c hcA hcB
    rcases collectEntry_head t c hcA with ⟨r, rfl⟩
    rcases collectForest_head ts _ hcB with ⟨t', ht', r', he⟩
    have hn : t.name = t'.name := by injection he
    have hmem : (ts.map FSTree.name).contains t.name = true := by
      apply List.elem_eq_true_of_mem
      rw [hn]
      exact List.mem_map_of_mem _ ht'
    rw [hmem] at hc
    cases hc

end

/-! Relative paths and the combined output. -/

theorem dropLead_append (xs : List Char) : ∀ ys, dropLead xs (xs ++ ys) = some ys := by
  induction xs with
  | nil => intro ys; rfl
  | cons a as ih =>
    intro ys
    simp [dropLead, ih]

theorem data_fullPath (root : String) (c : List String) :
    (fullPath root c).data = (root.data ++ ['/']) ++ (joinComps c).data := by
  rw [fullPath, String.data_append, String.data_append]

theorem relative_to_fullPath (root : String) (c : List String) :
    relative_to (fullPath root c) root = .ok (joinComps c) := by
  rw [relative_to, data_fullPath]
  rw [dropLead_append]

theorem concatAll_append (a b : List String) :
    concatAll (a ++ b) = concatAll a ++ concatAll b := by
  induction a with
  | nil =>
    rw [List.nil_append, concatAll]
    exact (String.empty_append _).symm
  | cons s rest ih =>
    rw [List.cons_append, concatAll, concatAll, ih, String.append_assoc]

theorem combine_files_eq_concat (root : String) (fsys : List FSTree) :
    ∀ entries : List (List String),
      combine_files root fsys entries =
        .ok (concatAll (entries.map fun e => blockFor (joinComps e) (read_text fsys e))) := by
  intro entries
  induction entries with
  | nil => rfl
  | cons e rest ih =>
    rw [combine_files, relative_to_fullPath, ih]
    rfl

theorem noSkipAncestors_spec {c : List String} (h : noSkipAncestors c = true) :
    ∀ d ∈ c.dropLast, isSkipDir d = false := by
  induction c with
  | nil =>
    intro d hd
    cases hd
  | cons n rest ih =>
    cases rest with
    | nil =>
      intro d hd
      cases hd
    | cons m r =>
      rw [noSkipAncestors_cons n (m :: r) (List.cons_ne_nil m r), Bool.and_eq_true_iff] at h
      intro d hd
      rw [List.dropLast_cons₂] at hd
      rcases List.mem_cons.mp hd with rfl | hd'
      · simpa using h.1
      · exact ih h.2 d hd'

theorem joinData_head (n : List Char) (rest : List (List Char)) :
    ∃ tail, joinData (n :: rest) = n ++ tail := by
  cases rest with
  | nil => exact ⟨[], (List.append_nil n).symm⟩
  | cons m r => exact ⟨'/' :: joinData (m :: r), rfl⟩

/-! The claims. -/

/-- C1, as stated, is false: at the concrete tree `exampleForest`, which
contains `node_modules/x/y.ts`, Discovery does not return the sorted list of
all files under the root whose filename ends with `.ts`/`.tsx` — the
suffix-matching file below `node_modules` is missing from its result. -/
theorem claim_C1_counterexample :
    find_ts_files "/r" exampleForest ≠ discovery_spec_skipless "/r" exampleForest := by
  decide

/-- C1 (amended): for every root and directory tree, Discovery returns
exactly the sorted list of all files anywhere under that root, at any nesting
depth, whose filename ends with `.ts` or `.tsx` under case-sensitive exact
suffix match AND whose path does not pass through any skip-set directory, and
no other files. -/
theorem claim_C1_amended (root : String) (cs : List FSTree) :
    find_ts_files root cs =
      (List.insertionSort (pathLe root)
        ((allForest cs).filter (fun c => noSkipAncestors c && matchesSuffix c))).map
        (fullPath root) := by
  rw [find_ts_files, sortedEntries, collectForest_eq_filter]
  rfl

/-- C2: on a well-formed tree (sibling names distinct, names nonempty and
separator-free), no file whose path passes through a directory named exactly
one of the skip-set entries, at any depth, appears in the list returned by
Discovery, even if the file's name matches the suffix filter. -/
theorem claim_C2 (root : String) (cs : List FSTree) (c : List String) (d : String)
    (hwf : wfForest cs = true) (hc : c ∈ allForest cs)
    (hd : d ∈ c.dropLast) (hskip : d ∈ SKIP_DIRS) :
    fullPath root c ∉ find_ts_files root cs := by
  intro hmem
  rw [find_ts_files] at hmem
  rcases List.mem_map.mp hmem with ⟨c', hc', heq⟩
  have hcf : c' ∈ collectForest cs := (sortedEntries_perm root cs).mem_iff.mp hc'
  have hv' := collectForestMemValid hwf c' hcf
  have hv : ∀ n ∈ c, validName n = true :=
    allForest_valid cs (wfAll_of_wfForest hwf) c hc
  have hce : c' = c := fullPath_inj hv'.2 hv heq
  subst hce
  rw [collectForest_eq_filter] at hcf
  have hkeep : keepComps c' = true := List.of_mem_filter hcf
  rw [keepComps, Bool.and_eq_true_iff] at hkeep
  have hfalse := noSkipAncestors_spec hkeep.1 d hd
  have htrue : isSkipDir d = true := List.elem_eq_true_of_mem hskip
  rw [htrue] at hfalse
  cases hfalse

/-- C2 witness: the skipped file `node_modules/x/y.ts` of the example tree is
indeed absent from the discovered list. -/
theorem claim_C2_witness :
    wfForest exampleForest = true ∧
    ["node_modules", "x", "y.ts"] ∈ allForest exampleForest ∧
    "node_modules" ∈ (["node_modules", "x", "y.ts"] : List String).dropLast ∧
    "node_modules" ∈ SKIP_DIRS ∧
    fullPath "/r" ["node_modules", "x", "y.ts"] ∉ find_ts_files "/r" exampleForest :=
  ⟨by decide, by decide, by decide, by decide,
   claim_C2 "/r" exampleForest ["node_modules", "x", "y.ts"] "node_modules"
     (by decide) (by decide) (by decide) (by decide)⟩

/-- C3: on a well-formed tree with a non-empty discovered list, the Combiner
succeeds and writes exactly one block per discovered file, in sorted order
(the entries written are exactly those whose full paths form
`find_ts_files`), blocks concatenated directly with no separators between
them, each block being `blockFor` of the file's unique root-relative header
path (header: newline, a line of 80 `'='`, the `// FILE:` line, a second
line of 80 `'='`, a blank line; then content and a trailing newline). -/
theorem claim_C3 (root : String) (cs : List FSTree)
    (hwf : wfForest cs = true) (_hne : sortedEntries root cs ≠ []) :
    combine_files root cs (sortedEntries root cs) =
        .ok (concatAll ((sortedEntries root cs).map
          (fun e => blockFor (joinComps e) (read_text cs e)))) ∧
      ((sortedEntries root cs).map joinComps).Nodup ∧
      (sortedEntries root cs).length = (find_ts_files root cs).length ∧
      (sortedEntries root cs).map (fullPath root) = find_ts_files root cs := by
  refine ⟨combine_files_eq_concat root cs _, ?_, ?_, rfl⟩
  · have hnd : (collectForest cs).Nodup :=
      collectForest_nodup cs (distinct_of_wfForest hwf) (wfAll_of_wfForest hwf)
    have hnd' : (sortedEntries root cs).Nodup :=
      (sortedEntries_perm root cs).nodup_iff.mpr hnd
    refine List.Nodup.map_on ?_ hnd'
    intro x hx y hy hxy
    have hx' := collectForestMemValid hwf x ((sortedEntries_perm root cs).mem_iff.mp hx)
    have hy' := collectForestMemValid hwf y ((sortedEntries_perm root cs).mem_iff.mp hy)
    exact joinComps_inj hx'.2 hy'.2 hxy
  · rw [find_ts_files, List.length_map]

/-- C3 witness: the example tree yields three blocks with distinct headers. -/
theorem claim_C3_witness :
    wfForest exampleForest = true ∧ sortedEntries "/r" exampleForest ≠ [] ∧
    (combine_files "/r" exampleForest (sortedEntries "/r" exampleForest) =
        .ok (concatAll ((sortedEntries "/r" exampleForest).map
          (fun e => blockFor (joinComps e) (read_text exampleForest e)))) ∧
      ((sortedEntries "/r" exampleForest).map joinComps).Nodup ∧
      (sortedEntries "/r" exampleForest).length =
        (find_ts_files "/r" exampleForest).length ∧
      (sortedEntries "/r" exampleForest).map (fullPath "/r") =
        find_ts_files "/r" exampleForest) :=
  ⟨by decide, by decide, claim_C3 "/r" exampleForest (by decide) (by decide)⟩

/-- C4: when a discovered file's read fails, the Combiner emits the block
with the inline error marker containing the failure description in place of
that file's content, the run is not aborted (the result is `Except.ok`), and
the blocks of all the other files still appear around it, in order. -/
theorem claim_C4 (root : String) (fsys : List FSTree) (l₁ l₂ : List (List String))
    (e : List String) (msg : String) (hr : read_text fsys e = .error msg) :
    combine_files root fsys (l₁ ++ e :: l₂) =
      .ok (concatAll (l₁.map fun x => blockFor (joinComps x) (read_text fsys x)) ++
           ((blockHeader (joinComps e) ++ ("// ERROR reading file: " ++ msg ++ "\n")) ++
            concatAll (l₂.map fun x => blockFor (joinComps x) (read_text fsys x)))) := by
  rw [combine_files_eq_concat, List.map_append, concatAll_append, List.map_cons, hr]
  rfl

/-- C4 witness: the undecodable `bad.ts` of the example tree produces an
inline error block while the neighbouring file's block still appears. -/
theorem claim_C4_witness :
    read_text exampleForest ["bad.ts"] = .error "bad utf8" ∧
    combine_files "/r" exampleForest ([["src", "app.ts"]] ++ ["bad.ts"] :: [["src", "util.tsx"]]) =
      .ok (concatAll ([["src", "app.ts"]].map fun x =>
             blockFor (joinComps x) (read_text exampleForest x)) ++
           ((blockHeader (joinComps ["bad.ts"]) ++
               ("// ERROR reading file: " ++ "bad utf8" ++ "\n")) ++
            concatAll ([["src", "util.tsx"]].map fun x =>
              blockFor (joinComps x) (read_text exampleForest x)))) :=
  ⟨by decide,
   claim_C4 "/r" exampleForest [["src", "app.ts"]] [["src", "util.tsx"]] ["bad.ts"]
     "bad utf8" (by decide)⟩

/-- C5: the list returned by Discovery is sorted lexicographically by the
full path string of each file — both in the sense of the linear order on
`String` and, spelled out, in the sense of lexicographic (code point) order
on the path's character sequence. -/
theorem claim_C5 (root : String) (cs : List FSTree) :
    (find_ts_files root cs).Sorted (· ≤ ·) ∧
    (find_ts_files root cs).Sorted
      (fun a b : String => a = b ∨ List.Lex (· < ·) a.data b.data) := by
  refine ⟨find_ts_files_sorted_le root cs, ?_⟩
  refine (find_ts_files_sorted_le root cs).imp ?_
  intro a b hab
  have h := (strLe_iff_le a b).mpr hab
  rw [strLe] at h
  rcases (lexLeCh_iff_lex a.data b.data).mp h with h' | h'
  · exact Or.inl (string_ext h')
  · exact Or.inr h'

/-- C6: when Discovery finds zero matching files, the output file is never
created or overwritten (`output = none`: the file is not even opened), the
process reports zero found, and the exit code is 0. -/
theorem claim_C6 (root outputName : String) (cs : List FSTree)
    (h : find_ts_files root cs = []) :
    (main root (some cs) outputName).exitCode = 0 ∧
    (main root (some cs) outputName).output = none ∧
    "No TypeScript files found" ∈ (main root (some cs) outputName).stdout := by
  simp [main, h]

/-- C6 witness: a tree with no TypeScript files reports zero found and does
not write. -/
theorem claim_C6_witness :
    find_ts_files "/r" noTsForest = [] ∧
    ((main "/r" (some noTsForest) "combined.ts").exitCode = 0 ∧
     (main "/r" (some noTsForest) "combined.ts").output = none ∧
     "No TypeScript files found" ∈ (main "/r" (some noTsForest) "combined.ts").stdout) :=
  ⟨by decide, claim_C6 "/r" "combined.ts" noTsForest (by decide)⟩

/-- C7: when the resolved root path does not exist, the entry point prints
the error message, exits with code 1, and stops before any write to the
output file. -/
theorem claim_C7 (root outputName : String) :
    (main root none outputName).exitCode = 1 ∧
    (main root none outputName).output = none ∧
    (main root none outputName).stdout = ["Error: Path '" ++ root ++ "' does not exist"] :=
  ⟨rfl, rfl, rfl⟩

/-- C8: for every discovered file of a well-formed tree, computing the path
relative to the scan root always succeeds (the failure branch of
`relative_to` is unreachable, since every discovered path extends the root by
construction), and the relative path printed in the header is nonempty and
has no leading path separator. -/
theorem claim_C8 (root : String) (cs : List FSTree) (c : List String)
    (hwf : wfForest cs = true) (hc : c ∈ sortedEntries root cs) :
    relative_to (fullPath root c) root = .ok (joinComps c) ∧
    joinComps c ≠ "" ∧ (joinComps c).data.head? ≠ some '/' := by
  refine ⟨relative_to_fullPath root c, ?_⟩
  have hv := collectForestMemValid hwf c ((sortedEntries_perm root cs).mem_iff.mp hc)
  cases c with
  | nil => exact absurd rfl hv.1
  | cons n rest =>
    have hvn := validNameL_iff.mp (hv.2 n (List.mem_cons_self n rest))
    obtain ⟨tail, hj⟩ := joinData_head n.data (rest.map String.data)
    have hdata : (joinComps (n :: rest)).data = n.data ++ tail := hj
    cases hnd : n.data with
    | nil => exact absurd hnd hvn.1
    | cons c₀ nd =>
      rw [hnd] at hdata
      constructor
      · intro hcon
        have := congrArg String.data hcon
        rw [hdata] at this
        simp at this
      · rw [hdata]
        simp only [List.cons_append, List.head?_cons]
        intro hcon
        apply hvn.2
        rw [hnd]
        have : c₀ = '/' := by injection hcon
        rw [← this]
        exact List.mem_cons_self c₀ nd

/-- C8 witness: the discovered entry `src/app.ts` of the example tree has a
successfully computed, nonempty, separator-free relative path. -/
theorem claim_C8_witness :
    wfForest exampleForest = true ∧
    ["src", "app.ts"] ∈ sortedEntries "/r" exampleForest ∧
    (relative_to (fullPath "/r" ["src", "app.ts"]) "/r" =
        .ok (joinComps ["src", "app.ts"]) ∧
      joinComps ["src", "app.ts"] ≠ "" ∧
      (joinComps ["src", "app.ts"]).data.head? ≠ some '/') :=
  ⟨by decide, by decide, claim_C8 "/r" exampleForest ["src", "app.ts"] (by decide) (by decide)⟩

/-- C9: Discovery is deterministic: whatever order the operating system
enumerates directory entries in (any permutation of the walked paths), the
sorted discovered list is the same; in particular, two runs on an unchanged
filesystem yield identical, identically-ordered lists. -/
theorem claim_C9 (root : String) (cs : List FSTree) (l : List (List String))
    (h : l.Perm (collectForest cs)) :
    (List.insertionSort (pathLe root) l).map (fullPath root) = find_ts_files root cs := by
  haveI : IsTotal (List String) (pathLe root) := ⟨fun a b => lexLeCh_total _ _⟩
  haveI : IsTrans (List String) (pathLe root) := ⟨fun _ _ _ h₁ h₂ => lexLeCh_trans h₁ h₂⟩
  have s₁ : ((List.insertionSort (pathLe root) l).map (fullPath root)).Sorted (· ≤ ·) :=
    List.Pairwise.map _ (fun _ _ hab => (strLe_iff_le _ _).mp hab)
      (List.sorted_insertionSort (pathLe root) l)
  have s₂ := find_ts_files_sorted_le root cs
  have hp : ((List.insertionSort (pathLe root) l).map (fullPath root)).Perm
      (find_ts_files root cs) :=
    List.Perm.map _ ((List.perm_insertionSort _ l).trans
      (h.trans (sortedEntries_perm root cs).symm))
  exact List.eq_of_perm_of_sorted hp s₁ s₂

/-- C9 witness: enumerating the example tree's walked paths in reverse order
still produces the same sorted discovered list. -/
theorem claim_C9_witness :
    ((collectForest exampleForest).reverse).Perm (collectForest exampleForest) ∧
    (List.insertionSort (pathLe "/r") ((collectForest exampleForest).reverse)).map
        (fullPath "/r") = find_ts_files "/r" exampleForest :=
  ⟨by decide, claim_C9 "/r" exampleForest ((collectForest exampleForest).reverse) (by decide)⟩

/-- C10: each per-file block is all-or-nothing: in the (always successful)
combine run, every entry's block is either the header followed by the
complete file content and a trailing newline, or the header followed by the
single inline error line — never a truncated prefix of the content. -/
theorem claim_C10 (root : String) (fsys : List FSTree) (entries : List (List String))
    (e : List String) (he : e ∈ entries) :
    ∃ out pre post,
      combine_files root fsys entries = .ok out ∧
      out = pre ++ (blockFor (joinComps e) (read_text fsys e) ++ post) ∧
      ((∃ content, read_text fsys e = .ok content ∧
          blockFor (joinComps e) (read_text fsys e) =
            blockHeader (joinComps e) ++ (content ++ "\n")) ∨
       (∃ msg, read_text fsys e = .error msg ∧
          blockFor (joinComps e) (read_text fsys e) =
            blockHeader (joinComps e) ++ ("// ERROR reading file: " ++ msg ++ "\n"))) := by
  rcases List.append_of_mem he with ⟨l₁, l₂, rfl⟩
  refine ⟨_, concatAll (l₁.map fun x => blockFor (joinComps x) (read_text fsys x)),
    concatAll (l₂.map fun x => blockFor (joinComps x) (read_text fsys x)),
    combine_files_eq_concat root fsys _, ?_, ?_⟩
  · rw [List.map_append, concatAll_append, List.map_cons]
    rfl
  · cases hread : read_text fsys e with
    | ok content => exact Or.inl ⟨content, rfl, rfl⟩
    | error msg => exact Or.inr ⟨msg, rfl, rfl⟩

/-- C10 witness: in the example tree's combine run, the failing `bad.ts`
entry contributes an error-line block and the readable `src/app.ts` entry a
complete-content block. -/
theorem claim_C10_witness :
    ["bad.ts"] ∈ sortedEntries "/r" exampleForest ∧
    (∃ out pre post,
      combine_files "/r" exampleForest (sortedEntries "/r" exampleForest) = .ok out ∧
      out = pre ++ (blockFor (joinComps ["bad.ts"])
        (read_text exampleForest ["bad.ts"]) ++ post) ∧
      ((∃ content, read_text exampleForest ["bad.ts"] = .ok content ∧
          blockFor (joinComps ["bad.ts"]) (read_text exampleForest ["bad.ts"]) =
            blockHeader (joinComps ["bad.ts"]) ++ (content ++ "\n")) ∨
       (∃ msg, read_text exampleForest ["bad.ts"] = .error msg ∧
          blockFor (joinComps ["bad.ts"]) (read_text exampleForest ["bad.ts"]) =
            blockHeader (joinComps ["bad.ts"]) ++
              ("// ERROR reading file: " ++ msg ++ "\n")))) :=
  ⟨by decide,
   claim_C10 "/r" exampleForest (sortedEntries "/r" exampleForest) ["bad.ts"] (by decide)⟩

end CombineTs
